import Mathlib

/-!
Shallow embedding of `src/Trabalho1_AnaMaria/Hash.py`, the core of a static
hash index over paginated record storage.

Modelling conventions:
- Python `int` is modelled by `Int` (`Nat` where the source only ever holds
  non-negative counts); the 32-bit masking `& 0xFFFFFFFF` in the hash is an
  explicit `% 2^32`.
- Python operations that can raise (`ZeroDivisionError` in `nr / self.fr`,
  `IndexError` on `self.buckets[b]`) or diverge (the `while True` insert loop
  with non-positive capacity) are modelled with `Option`: `none` means the
  Python code raises or never returns.  No claim depends on the partially
  mutated state left behind by an exception.
- `math.ceil(nr / fr)` (exact real division, then ceiling) is modelled by the
  exact integer ceiling `ceilDiv`; Python `%` on integers (sign of divisor) is
  `Int.fmod`; Python list indexing (negative indices count from the end) is
  `pyIdx`.
-/

/-- Exact ceiling of the integer division `a / b` (`b ≠ 0`), the value Python
computes as `math.ceil(a / b)`: `Int.fdiv` is floor division, and
`⌈a/b⌉ = -⌊(-a)/b⌋`. -/
def ceilDiv (a b : Int) : Int := -(Int.fdiv (-a) b)

/-- Python list indexing: a negative index counts from the end; an index out of
range raises (modelled as `none`).  Returns the effective non-negative index. -/
def pyIdx (len : Nat) (i : Int) : Option Nat :=
  let j : Int := if i < 0 then (len : Int) + i else i
  if 0 ≤ j ∧ j < (len : Int) then some j.toNat else none

/-- `class Page`: a page id together with the ordered record keys it holds. -/
structure Page where
  page_id : Nat
  records : List String
deriving DecidableEq

/-- `class BucketNode`: one bucket block with a capacity, its `(key, page_id)`
items in insertion order, and an optional overflow successor (`self.next`). -/
inductive BucketNode where
  | node (capacity : Int) (items : List (String × Nat)) (next : Option BucketNode)

/-- Field accessor for `BucketNode.capacity`. -/
def BucketNode.capacity : BucketNode → Int
  | .node c _ _ => c

/-- Field accessor for `BucketNode.items`. -/
def BucketNode.items : BucketNode → List (String × Nat)
  | .node _ its _ => its

/-- Field accessor for `BucketNode.next`. -/
def BucketNode.next : BucketNode → Option BucketNode
  | .node _ _ nxt => nxt

/-- The walk of `BucketNode.insert`: `headCap` is the capacity of the chain
head (`self.capacity` in the source, used when allocating a fresh overflow
node), `isHead` records whether the current node is the head (`node is self`).
If the current node has room the entry is appended there and the returned flag
is `true` iff that node is not the head.  A full node with no successor
allocates a fresh node of capacity `headCap` and the walk continues into it:
when `headCap ≤ 0` the fresh node is itself full and the Python loop never
terminates, modelled as `none`. -/
def BucketNode.insertGo (headCap : Int) (key : String) (page_id : Nat) :
    BucketNode → Bool → Option (BucketNode × Bool)
  | .node cap its nxt, isHead =>
    if (its.length : Int) < cap then
      some (.node cap (its ++ [(key, page_id)]) nxt, !isHead)
    else
      match nxt with
      | some n =>
        match insertGo headCap key page_id n false with
        | some (n2, flag) => some (.node cap its (some n2), flag)
        | none => none
      | none =>
        if 0 < headCap then
          some (.node cap its (some (.node headCap [(key, page_id)] none)), true)
        else
          none

/-- `BucketNode.insert(key, page_id)`: returns the updated chain and the flag
"inserted into an overflow node (not the primary)". -/
def BucketNode.insert (b : BucketNode) (key : String) (page_id : Nat) :
    Option (BucketNode × Bool) :=
  b.insertGo b.capacity key page_id true

/-- `BucketNode.find(key)`: first match in chain order, items scanned in
insertion order inside each node. -/
def BucketNode.find : BucketNode → String → Option Nat
  | .node _ its nxt, key =>
    match its.find? (fun e => e.1 == key) with
    | some e => some e.2
    | none =>
      match nxt with
      | some n => n.find key
      | none => none

/-- `class HashIndex`: configuration `fr`, bucket count `nb`, the bucket
array, and the three statistics counters. -/
structure HashIndex where
  fr : Int
  nb : Int
  buckets : List BucketNode
  inserts : Nat
  collision_inserts : Nat
  overflow_inserts : Nat

/-- `HashIndex.__init__(fr)`: stores `fr` as given (no validation, no
clamping) and starts with no buckets and zeroed counters. -/
def HashIndex.init (fr : Int) : HashIndex :=
  { fr := fr, nb := 0, buckets := [], inserts := 0,
    collision_inserts := 0, overflow_inserts := 0 }

/-- The 32-bit accumulator of `HashIndex.hash_fn`: over the characters of the
key in order, `h = (h * 31 + ord(ch)) & 0xFFFFFFFF`, starting from `0`. -/
def hashAcc (key : String) : Nat :=
  key.data.foldl (fun h c => (h * 31 + c.toNat) % 4294967296) 0

/-- `HashIndex.hash_fn(key, nb)`: the accumulator modulo `nb` (Python `%`,
i.e. `Int.fmod`); `nb = 0` raises `ZeroDivisionError` (`none`). -/
def HashIndex.hash_fn (key : String) (nb : Int) : Option Int :=
  if nb = 0 then none else some (Int.fmod (hashAcc key) nb)

/-- One iteration of the insertion loop in `HashIndex.build`: hash the key,
index the bucket array, note a collision if the primary bucket already has an
item, insert, note an overflow if the insert landed outside the head, and count
the insert. -/
def HashIndex.insertKey (idx : HashIndex) (key : String) (page_id : Nat) :
    Option HashIndex :=
  match HashIndex.hash_fn key idx.nb with
  | none => none
  | some b =>
    match pyIdx idx.buckets.length b with
    | none => none
    | some j =>
      match idx.buckets[j]? with
      | none => none
      | some primary =>
        match primary.insert key page_id with
        | none => none
        | some (primary2, wentOverflow) =>
          some { idx with
            buckets := idx.buckets.set j primary2,
            inserts := idx.inserts + 1,
            collision_inserts :=
              idx.collision_inserts + (if 0 < primary.items.length then 1 else 0),
            overflow_inserts :=
              idx.overflow_inserts + (if wentOverflow then 1 else 0) }

/-- `HashIndex.build(pages)`: compute `NR`, `NB = ceil(NR / FR) + 1`
(`FR = 0` raises `ZeroDivisionError` at the division), allocate `NB` fresh
buckets of capacity `FR` (Python `range` of a non-positive `NB` is empty),
reset the counters, then insert every record key with its page id, in page
order then in-page record order. -/
def HashIndex.build (idx : HashIndex) (pages : List Page) : Option HashIndex :=
  let nr : Nat := (pages.map fun p => p.records.length).sum
  if idx.fr = 0 then none
  else
    let nb : Int := ceilDiv (nr : Int) idx.fr + 1
    let start : HashIndex :=
      { fr := idx.fr, nb := nb,
        buckets := List.replicate nb.toNat (BucketNode.node idx.fr [] none),
        inserts := 0, collision_inserts := 0, overflow_inserts := 0 }
    pages.foldl
      (fun acc page =>
        page.records.foldl
          (fun acc2 key => acc2.bind fun i => i.insertKey key page.page_id) acc)
      (some start)

/-- `HashIndex.find_page(key)`: `None` when no buckets exist (index never
built), otherwise hash and delegate to the bucket chain.  The outer `Option`
models raising; the inner one is the found / not-found result. -/
def HashIndex.find_page (idx : HashIndex) (key : String) : Option (Option Nat) :=
  if idx.buckets.isEmpty then some none
  else
    match HashIndex.hash_fn key idx.nb with
    | none => none
    | some b =>
      match pyIdx idx.buckets.length b with
      | none => none
      | some j =>
        match idx.buckets[j]? with
        | none => none
        | some bucket => some (bucket.find key)

/-- `HashIndex.collision_rate()`: percentage of inserts whose primary bucket
was already non-empty; `0` when nothing was inserted.  Python float arithmetic
is modelled exactly in `ℚ`. -/
def HashIndex.collision_rate (idx : HashIndex) : ℚ :=
  if idx.inserts = 0 then 0
  else (idx.collision_inserts : ℚ) / (idx.inserts : ℚ) * 100

/-- `HashIndex.overflow_rate()`: percentage of inserts that landed in an
overflow node; `0` when nothing was inserted. -/
def HashIndex.overflow_rate (idx : HashIndex) : ℚ :=
  if idx.inserts = 0 then 0
  else (idx.overflow_inserts : ℚ) / (idx.inserts : ℚ) * 100

/-- `table_scan(pages, key)` with the running `cost` accumulator: each page
costs one read before it is checked; the scan stops at the first page whose
records contain the key. -/
def table_scanGo (key : String) (cost : Nat) : List Page → Option Nat × Nat
  | [] => (none, cost)
  | p :: rest =>
    if p.records.contains key then (some p.page_id, cost + 1)
    else table_scanGo key (cost + 1) rest

/-- `table_scan(pages, key) -> (page_id or None, pages read)`. -/
def table_scan (pages : List Page) (key : String) : Option Nat × Nat :=
  table_scanGo key 0 pages

/-!
Spec-side and proof-side auxiliary definitions.
-/

/-- The id of the first page (in store order) whose records contain the key,
or `none` when no page does. -/
def firstContaining (pages : List Page) (key : String) : Option Nat :=
  (pages.find? fun p => p.records.contains key).map fun p => p.page_id

/-- The `(key, page_id)` pairs a build inserts, in insertion order: page order,
then in-page record order. -/
def pageEntries (pages : List Page) : List (String × Nat) :=
  pages.flatMap fun p => p.records.map fun key => (key, p.page_id)

/-- One `Option`-chained step of the build insertion loop. -/
def stepEntry (acc : Option HashIndex) (e : String × Nat) : Option HashIndex :=
  acc.bind fun i => i.insertKey e.1 e.2

/-- The bucket index an inserted key lands in, as a natural number (used for
`nb > 0`, where Python `%` is non-negative). -/
def bucketOf (key : String) (nb : Int) : Nat :=
  (Int.fmod (hashAcc key) nb).toNat

/-- A bucket chain viewed as the list of its nodes' `(capacity, items)`. -/
def chainNodes : BucketNode → List (Int × List (String × Nat))
  | .node cap its nxt =>
    (cap, its) ::
      match nxt with
      | some n => chainNodes n
      | none => []

/-- All entries stored in a chain, in chain order and, inside each node, in
insertion order. -/
def chainList : BucketNode → List (String × Nat)
  | .node _ its nxt =>
    its ++
      match nxt with
      | some n => chainList n
      | none => []

/-- Written from the spec of `BucketNode.insert`: walking the node list, the
entry is appended to the first node that has room; if every node is full, a
fresh node of the head capacity holding just the entry is appended. -/
def insertChainSpec (headCap : Int) (e : String × Nat) :
    List (Int × List (String × Nat)) → List (Int × List (String × Nat))
  | [] => [(headCap, [e])]
  | (cap, its) :: rest =>
    if (its.length : Int) < cap then (cap, its ++ [e]) :: rest
    else (cap, its) :: insertChainSpec headCap e rest

/-- The chain-shape invariant, decidably: every node has the given capacity
and at most that many items, and every node that has an overflow link is
exactly full (so only the last node of the chain may have room). -/
def chainShapeOk (cap : Int) : BucketNode → Bool
  | .node c its nxt =>
    c == cap && (its.length : Int) ≤ cap &&
      match nxt with
      | some n => ((its.length : Int) == cap) && chainShapeOk cap n
      | none => true

/-- A sequence of `BucketNode.insert` calls against a chain that starts as a
single fresh node of the given capacity. -/
def insertSeq (cap : Int) (es : List (String × Nat)) : Option BucketNode :=
  es.foldl (fun acc e => acc.bind fun b => (b.insert e.1 e.2).map fun r => r.1)
    (some (BucketNode.node cap [] none))

/-- A small concrete page store used to discharge hypotheses of the theorems
on concrete inputs. -/
def demoPages : List Page :=
  [⟨0, ["apple", "banana", "cherry"]⟩, ⟨1, ["date", "egg", "fig"]⟩, ⟨2, ["grape"]⟩]

/-- Invariant of the bucket array during `build`, after the entries
`processed` have been inserted: the array has `nb` chains, each chain is
shape-correct for capacity `fr`, and chain `j` holds, in insertion order,
exactly the processed entries whose key hashes to `j`. -/
def bucketsInv (fr nb : Int) (processed : List (String × Nat))
    (buckets : List BucketNode) : Prop :=
  (buckets.length : Int) = nb ∧
  ∀ j bk, buckets[j]? = some bk →
    chainShapeOk fr bk = true ∧
    chainList bk = processed.filter fun e => bucketOf e.1 nb == j

/-- Invariant of the whole `HashIndex` state during the insertion loop of
`build`: positive configuration, positive bucket count, the bucket-array
invariant, and the counter relations. -/
def BuildInv (processed : List (String × Nat)) (idx : HashIndex) : Prop :=
  0 < idx.fr ∧ 0 < idx.nb ∧
  bucketsInv idx.fr idx.nb processed idx.buckets ∧
  idx.inserts = processed.length ∧
  idx.overflow_inserts ≤ idx.collision_inserts ∧
  idx.collision_inserts ≤ idx.inserts

/-!
Theorems.
-/

/-- C8: `find_page` on an index on which `build` was never invoked (the state
`__init__` leaves: `nb = 0`, no buckets) returns not-found for every key and
raises no error. -/
theorem find_page_unbuilt_not_found (fr : Int) (key : String) :
    (HashIndex.init fr).find_page key = some none := rfl

/-- C3, counterexample: constructing the index with `FR = 0 ≤ 0` does not
fail: `__init__` returns an ordinary state, and the configuration error
surfaces only later, inside `build` (modelled `none`, the
`ZeroDivisionError` raised by `nr / self.fr`). -/
theorem init_accepts_nonpositive_fr :
    HashIndex.init 0 =
      { fr := 0, nb := 0, buckets := [], inserts := 0,
        collision_inserts := 0, overflow_inserts := 0 } ∧
    (HashIndex.init 0).build [] = none :=
  ⟨rfl, rfl⟩

/-- C3, amended: constructing the index with any `FR`, including `FR ≤ 0`,
is not rejected — `__init__` stores `FR` unchanged (no validation, no
clamping) and always succeeds; an `FR = 0` misconfiguration surfaces only
when `build` is called (division by zero), i.e. the failure is deferred into
`build`. -/
theorem init_stores_fr_error_deferred_to_build (fr : Int) (pages : List Page) :
    (HashIndex.init fr).fr = fr ∧ (HashIndex.init fr).nb = 0 ∧
    (HashIndex.init fr).buckets = [] ∧
    (HashIndex.init 0).build pages = none :=
  ⟨rfl, rfl, rfl, rfl⟩

theorem table_scanGo_eq (key : String) (cost : Nat) (pages : List Page) :
    table_scanGo key cost pages =
      (firstContaining pages key,
        cost +
          if (pages.find? fun p => p.records.contains key).isSome then
            (pages.findIdx fun p => p.records.contains key) + 1
          else pages.length) := by
  induction pages generalizing cost with
  | nil => simp [table_scanGo, firstContaining]
  | cons p rest ih =>
    cases hc : p.records.contains key with
    | true =>
      have hfind : ((p :: rest).find? fun q => q.records.contains key) = some p :=
        List.find?_cons_of_pos _ hc
      have hidx : ((p :: rest).findIdx fun q => q.records.contains key) = 0 := by
        rw [List.findIdx_cons, hc, cond_true]
      show (if p.records.contains key then (some p.page_id, cost + 1)
            else table_scanGo key (cost + 1) rest) =
          (firstContaining (p :: rest) key, _)
      rw [if_pos hc]
      unfold firstContaining
      rw [hfind, hidx]
      simp
    | false =>
      have hfind : ((p :: rest).find? fun q => q.records.contains key) =
          rest.find? fun q => q.records.contains key :=
        List.find?_cons_of_neg _ (by rw [hc]; simp)
      have hidx : ((p :: rest).findIdx fun q => q.records.contains key) =
          (rest.findIdx fun q => q.records.contains key) + 1 := by
        rw [List.findIdx_cons, hc, cond_false]
      show (if p.records.contains key then (some p.page_id, cost + 1)
            else table_scanGo key (cost + 1) rest) =
          (firstContaining (p :: rest) key, _)
      rw [if_neg (by rw [hc]; simp), ih (cost + 1)]
      unfold firstContaining
      rw [hfind, hidx, List.length_cons]
      cases hrest : (rest.find? fun q => q.records.contains key).isSome with
      | true =>
        refine Prod.ext rfl ?_
        simp only [eq_self_iff_true, if_true]
        omega
      | false =>
        refine Prod.ext rfl ?_
        simp only [Bool.false_eq_true, if_false]
        omega

/-- C7: `table_scan(pages, key)` returns the id of the first page (in store
order) whose records contain the key together with that page's 1-based
position as cost, or not-found with cost equal to the total page count. -/
theorem table_scan_first_page_and_cost (pages : List Page) (key : String) :
    table_scan pages key =
      (firstContaining pages key,
        if (pages.find? fun p => p.records.contains key).isSome then
          (pages.findIdx fun p => p.records.contains key) + 1
        else pages.length) := by
  simpa using table_scanGo_eq key 0 pages

/-- C4: for `bucket_count > 0`, `hash_fn` returns exactly the fold
`h = (h * 31 + code_of(c)) mod 2^32` over the key's characters, reduced
modulo the bucket count, and the result lies in `[0, bucket_count)`; the
32-bit overflow wraps (the explicit `mod 2^32`) instead of erroring, and the
model is a pure function, so repeated calls agree by definition. -/
theorem hash_fn_formula_and_range (key : String) (nb : Int) (h : 0 < nb) :
    HashIndex.hash_fn key nb =
      some ((key.data.foldl (fun a c => (a * 31 + c.toNat) % 2 ^ 32) 0 % nb.toNat : Nat)) ∧
    0 ≤ ((key.data.foldl (fun a c => (a * 31 + c.toNat) % 2 ^ 32) 0 % nb.toNat : Nat) : Int) ∧
    ((key.data.foldl (fun a c => (a * 31 + c.toNat) % 2 ^ 32) 0 % nb.toNat : Nat) : Int) < nb := by
  have hnbt : 0 < nb.toNat := by omega
  have hcast : (nb.toNat : Int) = nb := Int.toNat_of_nonneg h.le
  have hacc : hashAcc key = key.data.foldl (fun a c => (a * 31 + c.toNat) % 2 ^ 32) 0 := by
    unfold hashAcc
    norm_num
  refine ⟨?_, by positivity, ?_⟩
  · unfold HashIndex.hash_fn
    rw [if_neg (by omega), hacc]
    congr 1
    rw [Int.fmod_eq_emod _ h.le, ← hcast]
    exact (Int.natCast_mod _ _).symm
  · calc ((_ % nb.toNat : Nat) : Int) < (nb.toNat : Int) := by
          exact_mod_cast Nat.mod_lt _ hnbt
      _ = nb := hcast

/-- C4, witness: the hypothesis `0 < bucket_count` is satisfiable. -/
theorem hash_fn_formula_and_range_check :
    HashIndex.hash_fn "apple" 5 =
      some (("apple".data.foldl (fun a c => (a * 31 + c.toNat) % 2 ^ 32) 0 % (5 : Int).toNat : Nat)) ∧
    0 ≤ (("apple".data.foldl (fun a c => (a * 31 + c.toNat) % 2 ^ 32) 0 % (5 : Int).toNat : Nat) : Int) ∧
    (("apple".data.foldl (fun a c => (a * 31 + c.toNat) % 2 ^ 32) 0 % (5 : Int).toNat : Nat) : Int) < 5 :=
  hash_fn_formula_and_range "apple" 5 (by decide)

theorem insertGo_nodes_spec (headCap : Int) (key : String) (page_id : Nat)
    (hcap : 0 < headCap) :
    ∀ (b : BucketNode) (isHead : Bool),
      (b.insertGo headCap key page_id isHead).map (fun r => (chainNodes r.1, r.2)) =
        some (insertChainSpec headCap (key, page_id) (chainNodes b),
          if (b.items.length : Int) < b.capacity then !isHead else true)
  | .node cap its (some n), isHead => by
    by_cases hroom : (its.length : Int) < cap
    · simp [BucketNode.insertGo, chainNodes, insertChainSpec,
        BucketNode.items, BucketNode.capacity, hroom]
    · have ih := insertGo_nodes_spec headCap key page_id hcap n false
      cases hi : n.insertGo headCap key page_id false with
      | none => rw [hi] at ih; simp at ih
      | some r =>
        obtain ⟨n2, flag⟩ := r
        rw [hi] at ih
        simp only [Option.map_some', Option.some.injEq, Prod.mk.injEq] at ih
        obtain ⟨ih1, ih2⟩ := ih
        simp only [BucketNode.insertGo, hroom, if_false, hi, Option.map_some',
          chainNodes, insertChainSpec, BucketNode.items, BucketNode.capacity,
          Option.some.injEq, Prod.mk.injEq]
        refine ⟨?_, ?_⟩
        · rw [ih1]
        · rw [ih2]
          simp
  | .node cap its none, isHead => by
    by_cases hroom : (its.length : Int) < cap
    · simp [BucketNode.insertGo, chainNodes, insertChainSpec,
        BucketNode.items, BucketNode.capacity, hroom]
    · simp only [BucketNode.insertGo, hroom, if_false, hcap, if_true,
        chainNodes, insertChainSpec,
        BucketNode.items, BucketNode.capacity]
      simp [chainNodes, insertChainSpec, hroom]

/-- C5: with a positive head capacity, `insert` always terminates (returns a
result), places the entry exactly as the spec describes — into the first node
of the chain that has room, allocating a fresh node of the head capacity when
every node is full — and its boolean result is `true` iff the entry landed in
a node other than the head, i.e. iff the head had no room (so it is `false`
whenever the entry landed in the head, even a previously non-empty head). -/
theorem insert_first_room_and_overflow_flag (b : BucketNode) (key : String)
    (page_id : Nat) (h : 0 < b.capacity) :
    (b.insert key page_id).map (fun r => (chainNodes r.1, r.2)) =
      some (insertChainSpec b.capacity (key, page_id) (chainNodes b),
        !decide ((b.items.length : Int) < b.capacity)) := by
  rw [BucketNode.insert, insertGo_nodes_spec b.capacity key page_id h b true]
  by_cases hroom : (b.items.length : Int) < b.capacity <;> simp [hroom]

/-- C5, witness: a head of capacity 1 that is already full. -/
theorem insert_first_room_and_overflow_flag_check :
    ((BucketNode.node 1 [("x", 0)] none).insert "y" 1).map
        (fun r => (chainNodes r.1, r.2)) =
      some (insertChainSpec (BucketNode.node 1 [("x", 0)] none).capacity ("y", 1)
          (chainNodes (BucketNode.node 1 [("x", 0)] none)),
        !decide ((((BucketNode.node 1 [("x", 0)] none).items.length : Int)) <
          (BucketNode.node 1 [("x", 0)] none).capacity)) :=
  insert_first_room_and_overflow_flag (BucketNode.node 1 [("x", 0)] none) "y" 1
    (by decide)

theorem chainShapeOk_capacity {cap : Int} {b : BucketNode}
    (h : chainShapeOk cap b = true) : b.capacity = cap := by
  cases b with
  | node c its nxt =>
    cases nxt <;>
      simp only [chainShapeOk, Bool.and_eq_true, beq_iff_eq, decide_eq_true_eq,
        Bool.and_true] at h <;>
      simp only [BucketNode.capacity] <;> tauto

theorem insertGo_shape (cap : Int) (key : String) (page_id : Nat)
    (hcap : 0 < cap) :
    ∀ (b : BucketNode) (isHead : Bool), chainShapeOk cap b = true →
      ∃ r, b.insertGo cap key page_id isHead = some r ∧
        chainShapeOk cap r.1 = true
  | .node c its (some n), isHead, hsh => by
    simp only [chainShapeOk, Bool.and_eq_true, beq_iff_eq,
      decide_eq_true_eq] at hsh
    obtain ⟨⟨hc, hlen⟩, hfull, hshn⟩ := hsh
    have hroom : ¬ ((its.length : Int) < c) := by omega
    obtain ⟨r, hr, hshr⟩ := insertGo_shape cap key page_id hcap n false hshn
    refine ⟨(.node c its (some r.1), r.2), ?_, ?_⟩
    · simp only [BucketNode.insertGo, hroom, if_false, hr]
    · simp [chainShapeOk, hc, hfull, hshr]
  | .node c its none, isHead, hsh => by
    simp only [chainShapeOk, Bool.and_eq_true, beq_iff_eq,
      decide_eq_true_eq] at hsh
    obtain ⟨⟨hc, hlen⟩, -⟩ := hsh
    by_cases hroom : (its.length : Int) < c
    · refine ⟨(.node c (its ++ [(key, page_id)]) none, !isHead), ?_, ?_⟩
      · simp only [BucketNode.insertGo, hroom, if_true]
      · simp [chainShapeOk, hc]
        omega
    · refine ⟨(.node c its (some (.node cap [(key, page_id)] none)), true), ?_, ?_⟩
      · simp only [BucketNode.insertGo, hroom, if_false]
        rw [if_pos hcap]
      · simp [chainShapeOk, hc]
        omega

theorem insertSeq_go (cap : Int) (hcap : 0 < cap) :
    ∀ (es : List (String × Nat)) (b0 : BucketNode), chainShapeOk cap b0 = true →
      ∃ b, es.foldl
          (fun acc e => acc.bind fun bb => (bb.insert e.1 e.2).map fun r => r.1)
          (some b0) = some b ∧
        chainShapeOk cap b = true
  | [], b0, h0 => ⟨b0, rfl, h0⟩
  | e :: rest, b0, h0 => by
    obtain ⟨r, hr, hshr⟩ := insertGo_shape cap e.1 e.2 hcap b0 true h0
    have hstep : b0.insert e.1 e.2 = some r := by
      rw [BucketNode.insert, chainShapeOk_capacity h0, hr]
    obtain ⟨b, hb, hshb⟩ := insertSeq_go cap hcap rest r.1 hshr
    refine ⟨b, ?_, hshb⟩
    rw [List.foldl_cons]
    simpa [hstep] using hb

/-- C6: starting from a fresh bucket of positive capacity, any sequence of
`insert` calls terminates and leaves a chain in which every node has exactly
the configured capacity and at most that many items, and every node that has
an overflow link is exactly full — so only the last node of the chain can be
under capacity, and an overflow link exists only below a node that an
insertion found full (the historical clause, whose structural content is the
link-implies-full condition checked by `chainShapeOk`). -/
theorem insertSeq_chain_shape (cap : Int) (es : List (String × Nat))
    (h : 0 < cap) :
    ∃ b, insertSeq cap es = some b ∧ chainShapeOk cap b = true := by
  refine insertSeq_go cap h es (BucketNode.node cap [] none) ?_
  simp [chainShapeOk]
  omega

/-- C6, witness: three inserts into a fresh capacity-1 bucket. -/
theorem insertSeq_chain_shape_check :
    ∃ b, insertSeq 1 [("a", 0), ("b", 0), ("c", 1)] = some b ∧
      chainShapeOk 1 b = true :=
  insertSeq_chain_shape 1 [("a", 0), ("b", 0), ("c", 1)] (by decide)

theorem ceilDiv_natCast (a : Int) (d : Nat) (hd : 0 < d) :
    ceilDiv a (d : Int) = ⌈(a : ℚ) / (d : ℚ)⌉ := by
  have h1 : ⌈(a : ℚ) / (d : ℚ)⌉ = -⌊-((a : ℚ) / (d : ℚ))⌋ := by
    rw [Int.floor_neg]
    ring
  rw [h1, show (-((a : ℚ) / (d : ℚ))) = (((-a : Int) : ℚ) / ((d : Nat) : ℚ)) by
    push_cast; ring, Rat.floor_intCast_div_natCast]
  unfold ceilDiv
  rw [Int.fdiv_eq_ediv _ (by positivity)]

theorem ceilDiv_pos_cast (a b : Int) (hb : 0 < b) :
    ceilDiv a b = ⌈(a : ℚ) / (b : ℚ)⌉ := by
  have h := ceilDiv_natCast a b.toNat (by omega)
  have h2 : ((b.toNat : Nat) : ℚ) = (b : ℚ) := by
    exact_mod_cast congrArg (fun z : Int => (z : ℚ)) (Int.toNat_of_nonneg hb.le)
  rw [Int.toNat_of_nonneg hb.le, h2] at h
  exact h

theorem bucketOf_int (key : String) (nb : Int) (h : 0 < nb) :
    ((bucketOf key nb : Nat) : Int) = Int.fmod (hashAcc key) nb := by
  unfold bucketOf
  rw [Int.toNat_of_nonneg (Int.fmod_nonneg (by positivity) h.le)]

theorem bucketOf_lt (key : String) (nb : Int) (h : 0 < nb) :
    ((bucketOf key nb : Nat) : Int) < nb := by
  rw [bucketOf_int key nb h]
  exact Int.fmod_lt_of_pos _ h

theorem hash_fn_pos_eq (key : String) (nb : Int) (h : 0 < nb) :
    HashIndex.hash_fn key nb = some ((bucketOf key nb : Nat) : Int) := by
  unfold HashIndex.hash_fn
  rw [if_neg (by omega), bucketOf_int key nb h]

theorem pyIdx_natCast (len i : Nat) (h : i < len) :
    pyIdx len (i : Int) = some i := by
  unfold pyIdx
  have h0 : ¬ ((i : Int) < 0) := by omega
  rw [if_neg h0]
  rw [if_pos ⟨by omega, by exact_mod_cast h⟩]
  simp

theorem insertGo_chainList (cap : Int) (key : String) (page_id : Nat) :
    ∀ (b : BucketNode) (isHead : Bool), chainShapeOk cap b = true →
      ∀ r, b.insertGo cap key page_id isHead = some r →
        chainList r.1 = chainList b ++ [(key, page_id)]
  | .node c its (some n), isHead, hsh, r, hr => by
    simp only [chainShapeOk, Bool.and_eq_true, beq_iff_eq, decide_eq_true_eq] at hsh
    obtain ⟨⟨hc, hlen⟩, hfull, hshn⟩ := hsh
    have hroom : ¬ ((its.length : Int) < c) := by omega
    simp only [BucketNode.insertGo, hroom, if_false] at hr
    cases hi : n.insertGo cap key page_id false with
    | none => rw [hi] at hr; simp at hr
    | some r2 =>
      obtain ⟨n2, flag⟩ := r2
      rw [hi] at hr
      simp only [Option.some.injEq] at hr
      subst hr
      have ihl := insertGo_chainList cap key page_id n false hshn (n2, flag) hi
      simp only at ihl
      simp [chainList, ihl]
  | .node c its none, isHead, hsh, r, hr => by
    by_cases hroom : (its.length : Int) < c
    · simp only [BucketNode.insertGo, hroom, if_true, Option.some.injEq] at hr
      subst hr
      simp [chainList]
    · simp only [BucketNode.insertGo, hroom, if_false] at hr
      by_cases hcap : 0 < cap
      · rw [if_pos hcap] at hr
        simp only [Option.some.injEq] at hr
        subst hr
        simp [chainList]
      · rw [if_neg hcap] at hr
        simp at hr

theorem find_eq_chainList : ∀ (b : BucketNode) (key : String),
    b.find key = ((chainList b).find? fun e => e.1 == key).map fun e => e.2
  | .node c its (some n), key => by
    simp only [BucketNode.find, chainList, List.find?_append]
    cases hf : its.find? (fun e => e.1 == key) with
    | some e => simp [hf]
    | none => simp [hf, find_eq_chainList n key]
  | .node c its none, key => by
    simp only [BucketNode.find, chainList, List.append_nil]
    cases hf : its.find? (fun e => e.1 == key) <;> simp [hf]

theorem find?_filter_of_imp {α : Type} (l : List α) (p q : α → Bool)
    (h : ∀ a, p a = true → q a = true) :
    (l.filter q).find? p = l.find? p := by
  induction l with
  | nil => simp
  | cons a l ih =>
    cases hq : q a with
    | true =>
      rw [List.filter_cons_of_pos hq]
      cases hp : p a with
      | true => rw [List.find?_cons_of_pos _ hp, List.find?_cons_of_pos _ hp]
      | false => rw [List.find?_cons_of_neg _ (by simp [hp]),
          List.find?_cons_of_neg _ (by simp [hp]), ih]
    | false =>
      have hp : p a = false := by
        cases hpa : p a
        · rfl
        · rw [h a hpa] at hq; cases hq
      rw [List.filter_cons_of_neg (by simp [hq]), ih,
        List.find?_cons_of_neg _ (by simp [hp])]

theorem pageEntries_length (pages : List Page) :
    (pageEntries pages).length = (pages.map fun p => p.records.length).sum := by
  induction pages with
  | nil => simp [pageEntries]
  | cons p rest ih =>
    simp only [pageEntries, List.flatMap_cons, List.length_append, List.length_map,
      List.map_cons, List.sum_cons] at ih ⊢
    omega

theorem find?_pageEntries (pages : List Page) (key : String) :
    (((pageEntries pages).find? fun e => e.1 == key).map fun e => e.2) =
      firstContaining pages key := by
  induction pages with
  | nil => simp [pageEntries, firstContaining]
  | cons p rest ih =>
    have hmap : ((p.records.map fun k => (k, p.page_id)).find? fun e => e.1 == key) =
        (p.records.find? fun k => k == key).map fun k => (k, p.page_id) := by
      rw [List.find?_map]
      rfl
    have hunf : pageEntries (p :: rest) =
        (p.records.map fun k => (k, p.page_id)) ++ pageEntries rest := by
      simp only [pageEntries, List.flatMap_cons]
    rw [hunf, List.find?_append, hmap]
    cases hc : p.records.contains key with
    | true =>
      have hmem : key ∈ p.records := by simpa using hc
      cases hf : p.records.find? (fun k => k == key) with
      | none =>
        rw [List.find?_eq_none] at hf
        exact absurd (show (key == key) = true by simp) (hf key hmem)
      | some k0 =>
        have hstep : (List.find? (fun q => q.records.contains key) (p :: rest)) =
            some p := by
          rw [List.find?_cons]
          show (match p.records.contains key with
                | true => some p
                | false => List.find? (fun q => q.records.contains key) rest) = _
          rw [hc]
        unfold firstContaining
        rw [hstep]
        simp
    | false =>
      have hn : p.records.find? (fun k => k == key) = none := by
        rw [List.find?_eq_none]
        intro x hx
        intro hbeq
        have hxk : x = key := by simpa using hbeq
        subst hxk
        simp [hx] at hc
      have hstep : (List.find? (fun q => q.records.contains key) (p :: rest)) =
          List.find? (fun q => q.records.contains key) rest := by
        rw [List.find?_cons]
        show (match p.records.contains key with
              | true => some p
              | false => List.find? (fun q => q.records.contains key) rest) = _
        rw [hc]
      unfold firstContaining
      rw [hn, hstep]
      simpa only [firstContaining, Option.map_none', Option.none_or] using ih

theorem foldl_stepEntry_none :
    ∀ es : List (String × Nat), es.foldl stepEntry none = none
  | [] => rfl
  | _ :: rest => foldl_stepEntry_none rest

theorem foldl_pages_eq :
    ∀ (pages : List Page) (acc : Option HashIndex),
      pages.foldl
        (fun acc page =>
          page.records.foldl
            (fun acc2 key => acc2.bind fun i => i.insertKey key page.page_id) acc)
        acc =
      (pageEntries pages).foldl stepEntry acc
  | [], acc => by simp [pageEntries]
  | p :: rest, acc => by
    have hunf : pageEntries (p :: rest) =
        (p.records.map fun k => (k, p.page_id)) ++ pageEntries rest := by
      simp only [pageEntries, List.flatMap_cons]
    rw [List.foldl_cons, hunf, List.foldl_append]
    have hinner :
        p.records.foldl
          (fun acc2 key => acc2.bind fun i => i.insertKey key p.page_id) acc =
        (p.records.map fun key => (key, p.page_id)).foldl stepEntry acc := by
      rw [List.foldl_map]
      rfl
    rw [hinner]
    exact foldl_pages_eq rest _

theorem build_def (idx : HashIndex) (pages : List Page) (h : ¬ idx.fr = 0) :
    idx.build pages =
      (pageEntries pages).foldl stepEntry
        (some { fr := idx.fr,
                nb := ceilDiv (((pages.map fun p => p.records.length).sum : Nat) : Int)
                  idx.fr + 1,
                buckets := List.replicate
                  (ceilDiv (((pages.map fun p => p.records.length).sum : Nat) : Int)
                    idx.fr + 1).toNat
                  (BucketNode.node idx.fr [] none),
                inserts := 0, collision_inserts := 0, overflow_inserts := 0 }) := by
  simp only [HashIndex.build]
  rw [if_neg h]
  exact foldl_pages_eq pages _

theorem fresh_buckets_inv (fr nb : Int) (hfr : 0 < fr) (hnb : 0 < nb) :
    BuildInv [] ({ fr := fr, nb := nb,
                   buckets := List.replicate nb.toNat (BucketNode.node fr [] none),
                   inserts := 0, collision_inserts := 0,
                   overflow_inserts := 0 }) := by
  refine ⟨hfr, hnb, ⟨?_, ?_⟩, rfl, le_refl _, le_refl _⟩
  · simp only [List.length_replicate]
    omega
  · intro j bk hj
    rw [List.getElem?_replicate] at hj
    by_cases hjn : j < nb.toNat
    · rw [if_pos hjn] at hj
      obtain rfl := (Option.some.inj hj).symm
      constructor
      · simp only [chainShapeOk, beq_self_eq_true, List.length_nil, Bool.and_true,
          Bool.true_and, Nat.cast_zero, decide_eq_true_eq]
        omega
      · simp [chainList]
    · rw [if_neg hjn] at hj
      cases hj

theorem insertKey_inv (idx : HashIndex) (key : String) (page_id : Nat)
    (processed : List (String × Nat)) (h : BuildInv processed idx) :
    ∃ idx2, idx.insertKey key page_id = some idx2 ∧
      BuildInv (processed ++ [(key, page_id)]) idx2 ∧
      idx2.nb = idx.nb ∧ idx2.fr = idx.fr := by
  obtain ⟨hfr, hnb, ⟨hblen, hbk⟩, hins, hoc, hci⟩ := h
  have hjlt : bucketOf key idx.nb < idx.buckets.length := by
    have h1 := bucketOf_lt key idx.nb hnb
    omega
  have hget : idx.buckets[bucketOf key idx.nb]? =
      some (idx.buckets.get ⟨bucketOf key idx.nb, hjlt⟩) :=
    List.getElem?_eq_getElem hjlt
  obtain ⟨hshape, hchain⟩ := hbk (bucketOf key idx.nb) _ hget
  have hcap : (idx.buckets.get ⟨bucketOf key idx.nb, hjlt⟩).capacity = idx.fr :=
    chainShapeOk_capacity hshape
  obtain ⟨⟨primary2, wentOv⟩, hr, hshape2⟩ :=
    insertGo_shape idx.fr key page_id hfr
      (idx.buckets.get ⟨bucketOf key idx.nb, hjlt⟩) true hshape
  have hinsert : (idx.buckets.get ⟨bucketOf key idx.nb, hjlt⟩).insert key page_id =
      some (primary2, wentOv) := by
    rw [BucketNode.insert, hcap, hr]
  have hchain2 : chainList primary2 =
      chainList (idx.buckets.get ⟨bucketOf key idx.nb, hjlt⟩) ++ [(key, page_id)] :=
    insertGo_chainList idx.fr key page_id _ true hshape (primary2, wentOv) hr
  have hflagTop := insertGo_nodes_spec idx.fr key page_id hfr
    (idx.buckets.get ⟨bucketOf key idx.nb, hjlt⟩) true
  rw [hr] at hflagTop
  simp only [Option.map_some', Option.some.injEq, Prod.mk.injEq] at hflagTop
  have hov_imp : wentOv = true →
      0 < (idx.buckets.get ⟨bucketOf key idx.nb, hjlt⟩).items.length := by
    intro hov
    obtain ⟨-, hf⟩ := hflagTop
    rw [hov] at hf
    by_cases hroom : ((idx.buckets.get ⟨bucketOf key idx.nb, hjlt⟩).items.length : Int) <
        (idx.buckets.get ⟨bucketOf key idx.nb, hjlt⟩).capacity
    · rw [if_pos hroom] at hf
      simp at hf
    · rw [hcap] at hroom
      omega
  refine ⟨{ idx with
      buckets := idx.buckets.set (bucketOf key idx.nb) primary2,
      inserts := idx.inserts + 1,
      collision_inserts := idx.collision_inserts +
        (if 0 < (idx.buckets.get ⟨bucketOf key idx.nb, hjlt⟩).items.length then 1
         else 0),
      overflow_inserts := idx.overflow_inserts + (if wentOv then 1 else 0) },
    ?_, ?_, rfl, rfl⟩
  · unfold HashIndex.insertKey
    simp only [hash_fn_pos_eq key idx.nb hnb, pyIdx_natCast _ _ hjlt, hget, hinsert]
  · refine ⟨hfr, hnb, ⟨?_, ?_⟩, ?_, ?_, ?_⟩
    · simpa [List.length_set] using hblen
    · intro j2 bk hj2
      by_cases hjj : j2 = bucketOf key idx.nb
      · subst hjj
        rw [List.getElem?_set, if_pos rfl, if_pos hjlt] at hj2
        obtain rfl := (Option.some.inj hj2).symm
        refine ⟨hshape2, ?_⟩
        rw [hchain2, hchain, List.filter_append]
        congr 1
        simp
      · rw [List.getElem?_set, if_neg (fun hh => hjj hh.symm)] at hj2
        obtain ⟨hsh3, hcl3⟩ := hbk j2 bk hj2
        refine ⟨hsh3, ?_⟩
        rw [hcl3, List.filter_append]
        have hemp : List.filter (fun e => bucketOf e.1 idx.nb == j2)
            [(key, page_id)] = [] := by
          have hne : ¬ (bucketOf key idx.nb = j2) := fun hh => hjj hh.symm
          simp [hne]
        rw [hemp, List.append_nil]
    · simp only [hins, List.length_append, List.length_cons, List.length_nil]
    · by_cases hov : wentOv = true
      · rw [if_pos hov, if_pos (hov_imp hov)]
        dsimp only
        omega
      · rw [if_neg hov]
        by_cases hcol : 0 < (idx.buckets.get ⟨bucketOf key idx.nb, hjlt⟩).items.length
        · rw [if_pos hcol]
          dsimp only
          omega
        · rw [if_neg hcol]
          dsimp only
          omega
    · by_cases hcol : 0 < (idx.buckets.get ⟨bucketOf key idx.nb, hjlt⟩).items.length
      · rw [if_pos hcol]
        dsimp only
        omega
      · rw [if_neg hcol]
        dsimp only
        omega

theorem insertAll_inv :
    ∀ (es : List (String × Nat)) (idx : HashIndex)
      (processed : List (String × Nat)), BuildInv processed idx →
      ∃ idx2, es.foldl stepEntry (some idx) = some idx2 ∧
        BuildInv (processed ++ es) idx2 ∧ idx2.nb = idx.nb ∧ idx2.fr = idx.fr
  | [], idx, processed, h => ⟨idx, rfl, by simpa using h, rfl, rfl⟩
  | e :: rest, idx, processed, h => by
    obtain ⟨idx1, h1, h2, h3, h4⟩ := insertKey_inv idx e.1 e.2 processed h
    obtain ⟨idx2, g1, g2, g3, g4⟩ := insertAll_inv rest idx1 (processed ++ [e]) h2
    refine ⟨idx2, ?_, ?_, by rw [g3, h3], by rw [g4, h4]⟩
    · rw [List.foldl_cons]
      have hstep : stepEntry (some idx) e = some idx1 := by
        simpa [stepEntry] using h1
      rw [hstep]
      exact g1
    · have hassoc : (processed ++ [e]) ++ rest = processed ++ (e :: rest) := by
        simp
      rw [hassoc] at g2
      exact g2

theorem build_some_inv (idx : HashIndex) (pages : List Page) (h : 0 < idx.fr) :
    ∃ idx2, idx.build pages = some idx2 ∧
      BuildInv (pageEntries pages) idx2 ∧
      idx2.nb =
        ceilDiv (((pages.map fun p => p.records.length).sum : Nat) : Int) idx.fr
          + 1 ∧
      idx2.fr = idx.fr := by
  rw [build_def idx pages (by omega)]
  have hnbpos : 0 <
      ceilDiv (((pages.map fun p => p.records.length).sum : Nat) : Int) idx.fr
        + 1 := by
    have h0 : 0 ≤
        ceilDiv (((pages.map fun p => p.records.length).sum : Nat) : Int)
          idx.fr := by
      rw [ceilDiv_pos_cast _ _ h]
      exact Int.ceil_nonneg (by positivity)
    omega
  obtain ⟨idx2, h1, h2, h3, h4⟩ :=
    insertAll_inv (pageEntries pages) _ [] (fresh_buckets_inv idx.fr _ h hnbpos)
  refine ⟨idx2, h1, by simpa using h2, by rw [h3], by rw [h4]⟩

/-- C2: for `FR > 0`, `build` always succeeds and the bucket count is exactly
`ceil(NR / FR) + 1` (exact rational ceiling, the value `math.ceil(nr / fr)`
computes), which in particular is at least 1 — even for `NR = 0`. -/
theorem build_bucket_count (idx : HashIndex) (pages : List Page)
    (h : 0 < idx.fr) :
    ∃ n : Int, (idx.build pages).map (fun i => i.nb) = some n ∧
      n = ⌈((((pages.map fun p => p.records.length).sum : Nat) : ℚ)) /
          (idx.fr : ℚ)⌉ + 1 ∧
      1 ≤ n := by
  obtain ⟨idx2, hb, -, hnb, -⟩ := build_some_inv idx pages h
  refine ⟨idx2.nb, by rw [hb, Option.map_some'], ?_, ?_⟩
  · rw [hnb, ceilDiv_pos_cast _ _ h, Int.cast_natCast]
  · rw [hnb]
    have h0 : 0 ≤
        ceilDiv (((pages.map fun p => p.records.length).sum : Nat) : Int)
          idx.fr := by
      rw [ceilDiv_pos_cast _ _ h]
      exact Int.ceil_nonneg (by positivity)
    omega

/-- C2, witness: the demonstration store (NR = 7) with FR = 2. -/
theorem build_bucket_count_check :
    ∃ n : Int, ((HashIndex.init 2).build demoPages).map (fun i => i.nb) =
        some n ∧
      n = ⌈((((demoPages.map fun p => p.records.length).sum : Nat) : ℚ)) /
          ((HashIndex.init 2).fr : ℚ)⌉ + 1 ∧
      1 ≤ n :=
  build_bucket_count (HashIndex.init 2) demoPages (by decide)

/-- C1: for `FR > 0`, `build` succeeds, and afterwards `find_page(key)`
raises nothing and returns exactly the id of the first page (in page order,
hence first-inserted order) whose records contain the key — `none` when no
page contains it. -/
theorem find_page_after_build (idx : HashIndex) (pages : List Page)
    (key : String) (h : 0 < idx.fr) :
    (idx.build pages).map (fun i => i.find_page key) =
      some (some (firstContaining pages key)) := by
  obtain ⟨idx2, hb, hinv, -, -⟩ := build_some_inv idx pages h
  rw [hb, Option.map_some']
  obtain ⟨hfr, hnb, ⟨hblen, hbk⟩, -, -, -⟩ := hinv
  congr 1
  have hjlt : bucketOf key idx2.nb < idx2.buckets.length := by
    have h1 := bucketOf_lt key idx2.nb hnb
    omega
  have hget : idx2.buckets[bucketOf key idx2.nb]? =
      some (idx2.buckets.get ⟨bucketOf key idx2.nb, hjlt⟩) :=
    List.getElem?_eq_getElem hjlt
  have hne : ¬ idx2.buckets.isEmpty = true := by
    cases hbuck : idx2.buckets with
    | nil => rw [hbuck] at hjlt; simp at hjlt
    | cons a l => simp [hbuck]
  unfold HashIndex.find_page
  rw [if_neg hne]
  simp only [hash_fn_pos_eq key idx2.nb hnb, pyIdx_natCast _ _ hjlt, hget]
  congr 1
  obtain ⟨hshape, hchain⟩ := hbk (bucketOf key idx2.nb) _ hget
  have himp : ∀ a : String × Nat, (a.1 == key) = true →
      (bucketOf a.1 idx2.nb == bucketOf key idx2.nb) = true := by
    intro a ha
    have ha2 : a.1 = key := by simpa using ha
    rw [ha2]
    simp
  rw [find_eq_chainList, hchain, find?_filter_of_imp _ _ _ himp,
    find?_pageEntries]

/-- C1, witness: looking up a key from the last demonstration page and a key
from the first one. -/
theorem find_page_after_build_check :
    ((HashIndex.init 2).build demoPages).map (fun i => i.find_page "grape") =
      some (some (firstContaining demoPages "grape")) :=
  find_page_after_build (HashIndex.init 2) demoPages "grape" (by decide)

/-- C10: for `FR ≥ 1`, build succeeds and afterwards
`overflow_count ≤ collision_count ≤ insert_count = NR`: an insertion can only
land in an overflow node when its primary bucket was full, hence non-empty,
so every overflow is also counted as a collision. -/
theorem overflow_le_collision_le_inserts (idx : HashIndex) (pages : List Page)
    (h : 1 ≤ idx.fr) :
    ∃ idx2, idx.build pages = some idx2 ∧
      idx2.overflow_inserts ≤ idx2.collision_inserts ∧
      idx2.collision_inserts ≤ idx2.inserts ∧
      idx2.inserts = (pages.map fun p => p.records.length).sum := by
  obtain ⟨idx2, hb, hinv, -, -⟩ := build_some_inv idx pages (by omega)
  obtain ⟨-, -, -, hins, hoc, hci⟩ := hinv
  exact ⟨idx2, hb, hoc, hci, by rw [hins, pageEntries_length]⟩

/-- C10, witness: FR = 1 over the demonstration store forces collisions and
overflows. -/
theorem overflow_le_collision_le_inserts_check :
    ∃ idx2, (HashIndex.init 1).build demoPages = some idx2 ∧
      idx2.overflow_inserts ≤ idx2.collision_inserts ∧
      idx2.collision_inserts ≤ idx2.inserts ∧
      idx2.inserts = (demoPages.map fun p => p.records.length).sum :=
  overflow_le_collision_le_inserts (HashIndex.init 1) demoPages (by decide)

theorem insertKey_counter_growth (idx idx2 : HashIndex) (key : String)
    (page_id : Nat) (h : idx.insertKey key page_id = some idx2) :
    idx2.inserts = idx.inserts + 1 ∧
    idx.collision_inserts ≤ idx2.collision_inserts ∧
    idx2.collision_inserts ≤ idx.collision_inserts + 1 ∧
    idx.overflow_inserts ≤ idx2.overflow_inserts ∧
    idx2.overflow_inserts ≤ idx.overflow_inserts + 1 := by
  unfold HashIndex.insertKey at h
  repeat' split at h
  any_goals exact Option.noConfusion h
  all_goals
    obtain rfl := Option.some.inj h
    refine ⟨rfl, ?_, ?_, ?_, ?_⟩ <;> dsimp only <;> omega

theorem foldl_counter_bounds :
    ∀ (es : List (String × Nat)) (idx idx2 : HashIndex),
      es.foldl stepEntry (some idx) = some idx2 →
      idx.collision_inserts ≤ idx.inserts →
      idx.overflow_inserts ≤ idx.inserts →
      idx2.collision_inserts ≤ idx2.inserts ∧
        idx2.overflow_inserts ≤ idx2.inserts
  | [], idx, idx2, h, h1, h2 => by
    obtain rfl := Option.some.inj h
    exact ⟨h1, h2⟩
  | e :: rest, idx, idx2, h, h1, h2 => by
    rw [List.foldl_cons] at h
    cases hs : idx.insertKey e.1 e.2 with
    | none =>
      rw [show stepEntry (some idx) e = none by simpa [stepEntry] using hs,
        foldl_stepEntry_none] at h
      cases h
    | some idx1 =>
      rw [show stepEntry (some idx) e = some idx1 by
        simpa [stepEntry] using hs] at h
      obtain ⟨g0, g1, g2, g3, g4⟩ := insertKey_counter_growth idx idx1 e.1 e.2 hs
      exact foldl_counter_bounds rest idx1 idx2 h (by omega) (by omega)

theorem rate_formula_bounds (c i : Nat) (hc : c ≤ i) :
    0 ≤ (if i = 0 then (0 : ℚ) else (c : ℚ) / (i : ℚ) * 100) ∧
    (if i = 0 then (0 : ℚ) else (c : ℚ) / (i : ℚ) * 100) ≤ 100 := by
  by_cases hi : i = 0
  · simp [hi]
  · rw [if_neg hi]
    constructor
    · positivity
    · have hipos : (0 : ℚ) < (i : ℚ) := by
        exact_mod_cast Nat.pos_of_ne_zero hi
      have h1 : (c : ℚ) / (i : ℚ) ≤ 1 := by
        rw [div_le_one hipos]
        exact_mod_cast hc
      calc (c : ℚ) / (i : ℚ) * 100 ≤ 1 * 100 :=
            mul_le_mul_of_nonneg_right h1 (by norm_num)
        _ = 100 := by norm_num

/-- C9: after every completed build, `collision_rate()` and `overflow_rate()`
lie in `[0, 100]` (since `collision_count ≤ insert_count` and
`overflow_count ≤ insert_count`), and both are `0` when `insert_count = 0`. -/
theorem rates_in_range (idx idx2 : HashIndex) (pages : List Page)
    (h : idx.build pages = some idx2) :
    0 ≤ idx2.collision_rate ∧ idx2.collision_rate ≤ 100 ∧
    0 ≤ idx2.overflow_rate ∧ idx2.overflow_rate ≤ 100 ∧
    (idx2.inserts = 0 → idx2.collision_rate = 0 ∧ idx2.overflow_rate = 0) := by
  by_cases hfr : idx.fr = 0
  · rw [show idx.build pages = none by simp [HashIndex.build, hfr]] at h
    cases h
  · rw [build_def idx pages hfr] at h
    obtain ⟨hc, ho⟩ := foldl_counter_bounds (pageEntries pages) _ idx2 h
      (le_refl 0) (le_refl 0)
    have hcr := rate_formula_bounds idx2.collision_inserts idx2.inserts hc
    have hor := rate_formula_bounds idx2.overflow_inserts idx2.inserts ho
    unfold HashIndex.collision_rate HashIndex.overflow_rate
    refine ⟨hcr.1, hcr.2, hor.1, hor.2, ?_⟩
    intro h0
    rw [if_pos h0, if_pos h0]
    exact ⟨rfl, rfl⟩

/-- C9, witness: the empty build (`insert_count = 0`). -/
theorem rates_in_range_check :
    ∃ idx2, (HashIndex.init 2).build [] = some idx2 ∧
      (0 ≤ idx2.collision_rate ∧ idx2.collision_rate ≤ 100 ∧
       0 ≤ idx2.overflow_rate ∧ idx2.overflow_rate ≤ 100 ∧
       (idx2.inserts = 0 → idx2.collision_rate = 0 ∧ idx2.overflow_rate = 0)) :=
  ⟨_, rfl, rates_in_range (HashIndex.init 2) _ [] rfl⟩
